import Mathlib

/-!
# neton-core `nativeInterop/c`: the environment table accessor

A verification development for `env.c` and `env.h`.

* Build time: both files are transcribed line by line as lists of
  preprocessor lines and run through a small conditional-inclusion
  machine (`ppStep`, `ppRun`), followed by a compile step and a link check.
* Run time: the three bodies of `neton_get_environ` are Lean functions over
  an explicit process state made of typed memory and the C runtime globals.
-/

namespace Neton

/-! ## Build time: the preprocessor -/

/-- Macros tested or defined by `env.c` and `env.h`. -/
inductive Macro
  | __APPLE__
  | __linux__
  | _WIN32
  | _WIN64
  | __cplusplus
  | NETON_ENV_H
  deriving DecidableEq, Repr

/-- Controlling expressions of `#elif`: `defined(M)` and `||`. -/
inductive Cond
  | defined (m : Macro)
  | or (a b : Cond)
  deriving DecidableEq, Repr

/-- Value of a controlling expression under the set of defined macros. -/
def Cond.eval (ms : List Macro) : Cond → Bool
  | .defined m => ms.contains m
  | .or a b => a.eval ms || b.eval ms

/-- The two source files of the interop directory. -/
inductive SrcFile
  | env_c
  | env_h
  deriving DecidableEq, Repr

/-- System headers named by `env.c`; their text is not part of the repository. -/
inductive SysHeader
  | crt_externs_h
  | stdlib_h
  deriving DecidableEq, Repr

/-- External symbols that occur in the two files. -/
inductive Sym
  | neton_get_environ
  | environ
  | _environ
  | _NSGetEnviron
  deriving DecidableEq, Repr

/-- The three platform families for which `env.c` has a branch; each names
the function body written in that branch. -/
inductive Platform
  | apple
  | linux
  | windows
  deriving DecidableEq, Repr

/-- Symbols a body refers to: `*_NSGetEnviron()`, `environ`, `_environ`. -/
def Platform.references : Platform → List Sym
  | .apple => [Sym._NSGetEnviron]
  | .linux => [Sym.environ]
  | .windows => [Sym._environ]

/-- External declarations that reach the compiler after preprocessing. -/
inductive Decl
  /-- whatever a system header declares -/
  | sysHeader (h : SysHeader)
  /-- the opening of a C linkage block, `extern "C"` with its brace -/
  | linkageOpen
  /-- the closing brace of the C linkage block -/
  | linkageClose
  /-- the prototype `char **f(void);` -/
  | funDecl (f : Sym)
  /-- the declaration `extern char **x;` -/
  | externVar (x : Sym)
  /-- the definition `char **f(void)` with the return statement of branch `body` -/
  | funDef (f : Sym) (body : Platform)
  deriving DecidableEq, Repr

/-- One line of a source file, as the preprocessor sees it. -/
inductive Line
  | ifdef (m : Macro)
  | ifndef (m : Macro)
  | elif (c : Cond)
  | endif
  | define (m : Macro)
  | includeLocal (f : SrcFile)
  | includeSys (h : SysHeader)
  /-- the `#error` directive; neither file contains one -/
  | error
  | code (d : Decl)
  deriving DecidableEq, Repr

/-- The text of `env.c`, lines 1 to 23 (blank lines dropped). -/
def env_c : List Line :=
  [ .ifdef .__APPLE__,
    .includeLocal .env_h,
    .includeSys .crt_externs_h,
    .code (.funDef .neton_get_environ .apple),
    .elif (.defined .__linux__),
    .includeLocal .env_h,
    .code (.externVar .environ),
    .code (.funDef .neton_get_environ .linux),
    .elif (.or (.defined ._WIN32) (.defined ._WIN64)),
    .includeLocal .env_h,
    .includeSys .stdlib_h,
    .code (.funDef .neton_get_environ .windows),
    .endif ]

/-- The text of `env.h`, lines 1 to 18 (comment and blank lines dropped). -/
def env_h : List Line :=
  [ .ifndef .NETON_ENV_H,
    .define .NETON_ENV_H,
    .ifdef .__cplusplus,
    .code .linkageOpen,
    .endif,
    .code (.funDecl .neton_get_environ),
    .ifdef .__cplusplus,
    .code .linkageClose,
    .endif,
    .endif ]

/-- Text of a source file. -/
def source : SrcFile → List Line
  | .env_c => env_c
  | .env_h => env_h

/-- One open conditional section. -/
structure Frame where
  /-- the enclosing group is being kept -/
  outer : Bool
  /-- one group of this section has already been selected -/
  taken : Bool
  /-- the current group is being kept -/
  live : Bool
  deriving DecidableEq, Repr

/-- State of the preprocessor. -/
structure PPState where
  /-- macros currently defined -/
  macros : List Macro
  /-- open conditional sections, innermost first -/
  stack : List Frame
  /-- declarations emitted so far, in order -/
  out : List Decl
  /-- diagnostics that reject the translation unit -/
  errors : Nat
  deriving DecidableEq, Repr

/-- Whether the line being read lies in a kept group. -/
def PPState.live (st : PPState) : Bool :=
  match st.stack with
  | [] => true
  | f :: _ => f.live

/-- Opening of a conditional section whose first condition has value `c`. -/
def PPState.open (st : PPState) (c : Bool) : PPState :=
  let keep := st.live && c
  { st with stack := { outer := st.live, taken := keep, live := keep } :: st.stack }

/-- Processing of one line; `inc` expands a local include. -/
def ppStep (inc : SrcFile → PPState → PPState) (st : PPState) : Line → PPState
  | .ifdef m => st.open (st.macros.contains m)
  | .ifndef m => st.open (!st.macros.contains m)
  | .elif c =>
    match st.stack with
    | [] => { st with errors := st.errors + 1 }
    | f :: fs =>
      let keep := f.outer && !f.taken && c.eval st.macros
      { st with stack := { f with taken := f.taken || keep, live := keep } :: fs }
  | .endif =>
    match st.stack with
    | [] => { st with errors := st.errors + 1 }
    | _ :: fs => { st with stack := fs }
  | .define m => if st.live then { st with macros := m :: st.macros } else st
  | .includeLocal f => if st.live then inc f st else st
  | .includeSys h => if st.live then { st with out := st.out ++ [.sysHeader h] } else st
  | .error => if st.live then { st with errors := st.errors + 1 } else st
  | .code d => if st.live then { st with out := st.out ++ [d] } else st

/-- Processing of a list of lines with local includes expanded to depth `depth`;
an include beyond that depth is a diagnostic. -/
def ppRun : Nat → PPState → List Line → PPState
  | 0, st, _ => { st with errors := st.errors + 1 }
  | depth + 1, st, ls => ls.foldl (ppStep (fun f st1 => ppRun depth st1 (source f))) st

/-- A platform configuration: which of the macros the compiler predefines.
The include guard `NETON_ENV_H` is never predefined. -/
structure Config where
  __APPLE__ : Bool
  __linux__ : Bool
  _WIN32 : Bool
  _WIN64 : Bool
  __cplusplus : Bool
  deriving DecidableEq, Repr

/-- Macros predefined under a configuration. -/
def Config.predefined (c : Config) : List Macro :=
  (if c.__APPLE__ then [Macro.__APPLE__] else []) ++
  (if c.__linux__ then [Macro.__linux__] else []) ++
  (if c._WIN32 then [Macro._WIN32] else []) ++
  (if c._WIN64 then [Macro._WIN64] else []) ++
  (if c.__cplusplus then [Macro.__cplusplus] else [])

/-- None of the four platform macros is defined. -/
def Config.unsupported (c : Config) : Bool :=
  !c.__APPLE__ && !c.__linux__ && !c._WIN32 && !c._WIN64

/-- Preprocessing of a whole file as a translation unit. -/
def preprocess (c : Config) (f : SrcFile) : PPState :=
  let st := ppRun 2 { macros := c.predefined, stack := [], out := [], errors := 0 } (source f)
  if st.stack.isEmpty then st else { st with errors := st.errors + 1 }

/-- Bodies of the definitions of `f` in a list of declarations. -/
def definitionsOf (f : Sym) : List Decl → List Platform
  | [] => []
  | .funDef g b :: ds => if g = f then b :: definitionsOf f ds else definitionsOf f ds
  | _ :: ds => definitionsOf f ds

/-- The definitions of `neton_get_environ` that preprocessing `env.c` emits. -/
def emitted (c : Config) : List Platform :=
  definitionsOf .neton_get_environ (preprocess c .env_c).out

/-! ## Build time: compiling and linking -/

/-- What a translation unit contributes to the link. -/
structure ObjectFile where
  /-- symbols defined by the unit -/
  defined : List Sym
  /-- symbols the unit uses -/
  referenced : List Sym
  deriving DecidableEq, Repr

/-- Symbols defined by a list of declarations. -/
def definedSyms : List Decl → List Sym
  | [] => []
  | .funDef f _ :: ds => f :: definedSyms ds
  | _ :: ds => definedSyms ds

/-- Symbols used by the function bodies of a list of declarations. -/
def referencedSyms : List Decl → List Sym
  | [] => []
  | .funDef _ b :: ds => b.references ++ referencedSyms ds
  | _ :: ds => referencedSyms ds

/-- Compilation of a file as a translation unit. The unit is rejected when
preprocessing raised a diagnostic (a kept `#error`, a stray `#elif` or
`#endif`, an unterminated section) or when a function is defined twice.
A unit that is empty after preprocessing is accepted and yields an object
file without symbols, as the C compilers of the three platforms do. -/
def compile (c : Config) (f : SrcFile) : Option ObjectFile :=
  let st := preprocess c f
  if st.errors = 0 ∧ (definedSyms st.out).Nodup then
    some { defined := definedSyms st.out, referenced := referencedSyms st.out }
  else none

/-- Whether some object of the list defines `x`. -/
def definedIn (objs : List ObjectFile) (x : Sym) : Bool :=
  objs.any (fun o => o.defined.contains x)

/-- Symbols used by some object and defined by none. -/
def unresolved (objs : List ObjectFile) : List Sym :=
  (objs.map (fun o => o.referenced)).flatten.filter (fun x => !definedIn objs x)

/-- The link step succeeds when no symbol is left unresolved. -/
def links (objs : List ObjectFile) : Bool :=
  (unresolved objs).isEmpty

/-! ## Run time: process state -/

/-- Pointer values; `0` is the null pointer. -/
abbrev Ptr := Nat

/-- The byte that ends a C string. -/
def NUL : Char := Char.ofNat 0

/-- Load from typed memory: address `a + 1` is the cell of index `a`, and the
null pointer is never mapped. -/
def load {α : Type} (mem : List α) : Ptr → Option α
  | 0 => none
  | a + 1 => mem.get? a

/-- The part of a process image that the accessor and its callers observe. -/
structure ProcState where
  /-- pointer-sized cells: `char **` variables and the slots of tables -/
  ptrMem : List Ptr
  /-- byte cells: the characters of the strings -/
  byteMem : List Char
  /-- value of the C runtime global `environ` (Linux) -/
  environ : Ptr
  /-- value of the C runtime global `_environ` (Windows) -/
  _environ : Ptr
  /-- address of the cell in which the Apple runtime keeps its table pointer -/
  nsEnvironAddr : Ptr
  /-- that cell exists: the Apple runtime hands out the address of a variable it owns -/
  nsEnviron_mapped : (load ptrMem nsEnvironAddr).isSome = true

/-- Modelled from the spec: the Apple "get environ pointer" runtime facility
declared by `crt_externs.h`, whose code is not part of the repository. It
returns the address of the runtime's own `char **` variable and changes nothing. -/
def _NSGetEnviron (s : ProcState) : Ptr × ProcState :=
  (s.nsEnvironAddr, s)

/-- The accessor of `env.c`, one body per branch. The result is the returned
`char **` with the state after the call; `none` stands for a faulting load.
* Apple (line 6): `return *_NSGetEnviron();`
* Linux (line 14): `return environ;`
* Windows (line 21): `return _environ;` -/
def neton_get_environ : Platform → ProcState → Option (Ptr × ProcState)
  | .apple, s =>
    let (pp, s1) := _NSGetEnviron s
    match load s1.ptrMem pp with
    | some t => some (t, s1)
    | none => none
  | .linux, s => some (s.environ, s)
  | .windows, s => some (s._environ, s)

/-! ## Run time: what a caller reads through the returned pointer -/

/-- The slots of a table from address `t` up to and including the first null
slot; `none` when the walk leaves mapped memory. -/
def readTable (mem : List Ptr) : Nat → Ptr → Option (List Ptr)
  | 0, _ => none
  | fuel + 1, t =>
    match load mem t with
    | none => none
    | some 0 => some [0]
    | some (q + 1) => (readTable mem fuel (t + 1)).map (fun qs => (q + 1) :: qs)

/-- The characters of the C string at address `q`, without the ending NUL;
`none` when the walk leaves mapped memory. -/
def readCStr (mem : List Char) : Nat → Ptr → Option (List Char)
  | 0, _ => none
  | fuel + 1, q =>
    match load mem q with
    | none => none
    | some ch => if ch = NUL then some [] else (readCStr mem fuel (q + 1)).map (fun cs => ch :: cs)

/-- One entry of the sequence a caller sees. -/
inductive Entry
  | str (cs : List Char)
  | terminator
  deriving DecidableEq, Repr

/-- The entry behind one slot: a null slot is the terminator. -/
def readEntry (s : ProcState) : Ptr → Option Entry
  | 0 => some .terminator
  | q + 1 => (readCStr s.byteMem s.byteMem.length (q + 1)).map Entry.str

/-- The entries behind a list of slots. -/
def readEntries (s : ProcState) : List Ptr → Option (List Entry)
  | [] => some []
  | q :: qs =>
    match readEntry s q, readEntries s qs with
    | some e, some es => some (e :: es)
    | _, _ => none

/-- The sequence denoted by a `char **` value in a state: the strings in table
order, then the terminator. `none` when `t` is null or dangling. -/
def envSequence (s : ProcState) (t : Ptr) : Option (List Entry) :=
  match readTable s.ptrMem s.ptrMem.length t with
  | some qs => readEntries s qs
  | none => none

/-- The table pointer kept by the platform's C runtime. -/
def platformTable : Platform → ProcState → Option Ptr
  | .apple, s => load s.ptrMem s.nsEnvironAddr
  | .linux, s => some s.environ
  | .windows, s => some s._environ

/-- The environment block of the process, as owned by the platform. -/
def processEnv (p : Platform) (s : ProcState) : Option (List Entry) :=
  match platformTable p s with
  | some t => envSequence s t
  | none => none

/-- The text before the first `=` of an entry. -/
def keyOf (cs : List Char) : List Char :=
  cs.takeWhile (fun ch => ch != '=')

/-- The entry has the form key, `=`, value with a non-empty key. -/
def hasShape (cs : List Char) : Bool :=
  cs.contains '=' && !(keyOf cs).isEmpty

/-! ## Concrete inputs -/

/-- The configuration with no macro predefined. -/
def bareConfig : Config :=
  { __APPLE__ := false, __linux__ := false, _WIN32 := false, _WIN64 := false,
    __cplusplus := false }

/-- A translation unit that calls the accessor and defines nothing. -/
def callerObject : ObjectFile :=
  { defined := [], referenced := [Sym.neton_get_environ] }

/-- A process whose table holds `A=1` and `PROBE_VAR=probe_value`. Cell 1 is
the Apple runtime variable, cells 2 to 4 are the table; the strings start at
bytes 1 and 5. -/
def probeState : ProcState :=
  { ptrMem := [2, 1, 5, 0]
    byteMem := "A=1".toList ++ [NUL] ++ "PROBE_VAR=probe_value".toList ++ [NUL]
    environ := 2
    _environ := 2
    nsEnvironAddr := 1
    nsEnviron_mapped := rfl }

/-- A process started with the environment `NOEQ`, `=x`: cell 1 is the Apple
runtime variable, cells 2 to 4 are the table. -/
def rawState : ProcState :=
  { ptrMem := [2, 1, 6, 0]
    byteMem := "NOEQ".toList ++ [NUL] ++ "=x".toList ++ [NUL]
    environ := 2
    _environ := 2
    nsEnvironAddr := 1
    nsEnviron_mapped := rfl }

/-- A process whose runtime holds no table: `environ` and `_environ` are null,
as `environ` is after `clearenv()`; cell 1 is the Apple runtime variable. -/
def clearedState : ProcState :=
  { ptrMem := [0]
    byteMem := []
    environ := 0
    _environ := 0
    nsEnvironAddr := 1
    nsEnviron_mapped := rfl }

/-! ## Lemmas on the run-time model -/

/-- The accessor returns the platform table pointer and the state it was given. -/
theorem neton_get_environ_spec (p : Platform) (s : ProcState) :
    ∃ t, platformTable p s = some t ∧ neton_get_environ p s = some (t, s) := by
  cases p with
  | apple =>
    have hm := s.nsEnviron_mapped
    cases hl : load s.ptrMem s.nsEnvironAddr with
    | none => simp [hl] at hm
    | some t => exact ⟨t, by simp [platformTable, hl], by simp [neton_get_environ, _NSGetEnviron, hl]⟩
  | linux => exact ⟨s.environ, rfl, rfl⟩
  | windows => exact ⟨s._environ, rfl, rfl⟩

/-- A load at an address beyond the mapped cells yields nothing. -/
theorem load_beyond {α : Type} (mem : List α) (a : Ptr) (h : mem.length + 1 ≤ a) :
    load mem a = none := by
  cases a with
  | zero => rfl
  | succ n =>
    simp only [load]
    exact List.get?_eq_none.mpr (by omega)

/-- One step of the table walk. -/
theorem readTable_succ (mem : List Ptr) (fuel : Nat) (t : Ptr) :
    readTable mem (fuel + 1) t =
      match load mem t with
      | none => none
      | some 0 => some [0]
      | some (q + 1) => (readTable mem fuel (t + 1)).map (fun qs => (q + 1) :: qs) := rfl

/-- Nothing is read through the null pointer. -/
theorem readTable_null (mem : List Ptr) (fuel : Nat) : readTable mem fuel 0 = none := by
  cases fuel <;> rfl

/-- Once the read bound reaches the end of memory, a larger bound reads the same table. -/
theorem readTable_bound_step (mem : List Ptr) :
    ∀ (fuel : Nat) (t : Ptr), mem.length + 1 ≤ t + fuel →
      readTable mem (fuel + 1) t = readTable mem fuel t
  | 0, t, h => by
    simp [readTable, load_beyond mem t (by omega)]
  | fuel + 1, t, h => by
    conv_lhs => rw [readTable_succ]
    conv_rhs => rw [readTable_succ]
    rw [readTable_bound_step mem fuel (t + 1) (by omega)]

/-- The bound used by `envSequence` loses no table: any larger bound reads the same. -/
theorem readTable_bound (mem : List Ptr) (t : Ptr) :
    ∀ n : Nat, readTable mem (mem.length + n) t = readTable mem mem.length t
  | 0 => rfl
  | n + 1 => by
    cases t with
    | zero => rw [readTable_null, readTable_null]
    | succ t1 =>
      rw [← Nat.add_assoc, readTable_bound_step mem (mem.length + n) (t1 + 1) (by omega)]
      exact readTable_bound mem (t1 + 1) n

/-- One step of the string walk. -/
theorem readCStr_succ (mem : List Char) (fuel : Nat) (q : Ptr) :
    readCStr mem (fuel + 1) q =
      match load mem q with
      | none => none
      | some ch =>
        if ch = NUL then some [] else (readCStr mem fuel (q + 1)).map (fun cs => ch :: cs) := rfl

/-- Once the read bound reaches the end of memory, a larger bound reads the same string. -/
theorem readCStr_bound_step (mem : List Char) :
    ∀ (fuel : Nat) (q : Ptr), mem.length + 1 ≤ q + fuel →
      readCStr mem (fuel + 1) q = readCStr mem fuel q
  | 0, q, h => by
    simp [readCStr, load_beyond mem q (by omega)]
  | fuel + 1, q, h => by
    conv_lhs => rw [readCStr_succ]
    conv_rhs => rw [readCStr_succ]
    rw [readCStr_bound_step mem fuel (q + 1) (by omega)]

/-- The bound used by `readEntry` loses no string: any larger bound reads the same. -/
theorem readCStr_bound (mem : List Char) (q : Ptr) :
    ∀ n : Nat, readCStr mem (mem.length + n) (q + 1) = readCStr mem mem.length (q + 1)
  | 0 => rfl
  | n + 1 => by
    rw [← Nat.add_assoc, readCStr_bound_step mem (mem.length + n) (q + 1) (by omega)]
    exact readCStr_bound mem q n

/-- A table that can be read consists of non-null slots followed by one null slot. -/
theorem readTable_terminated (mem : List Ptr) :
    ∀ (fuel : Nat) (t : Ptr) (qs : List Ptr), readTable mem fuel t = some qs →
      ∃ pre, qs = pre ++ [0] ∧ ∀ q ∈ pre, q ≠ 0
  | 0, _, _, h => by simp [readTable] at h
  | fuel + 1, t, qs, h => by
    unfold readTable at h
    cases hl : load mem t with
    | none => simp [hl] at h
    | some v =>
      cases v with
      | zero =>
        simp [hl] at h
        exact ⟨[], by simp [← h], by simp⟩
      | succ q =>
        simp [hl] at h
        obtain ⟨qs1, hq, rfl⟩ := h
        obtain ⟨pre, rfl, hpre⟩ := readTable_terminated mem fuel (t + 1) qs1 hq
        refine ⟨(q + 1) :: pre, by simp, ?_⟩
        intro x hx
        cases hx with
        | head => exact Nat.succ_ne_zero q
        | tail _ hx1 => exact hpre x hx1

/-- Non-null slots followed by one null slot read as strings followed by the terminator. -/
theorem readEntries_terminated (s : ProcState) :
    ∀ (pre : List Ptr) (es : List Entry), (∀ q ∈ pre, q ≠ 0) →
      readEntries s (pre ++ [0]) = some es →
      ∃ body, es = body ++ [Entry.terminator] ∧ Entry.terminator ∉ body ∧
        body.length = pre.length
  | [], es, _, h => by
    simp [readEntries, readEntry] at h
    exact ⟨[], by simp [← h], by simp, rfl⟩
  | q :: pre, es, hpre, h => by
    have hq : q ≠ 0 := hpre q (List.mem_cons_self q pre)
    obtain ⟨q1, rfl⟩ := Nat.exists_eq_succ_of_ne_zero hq
    simp only [List.cons_append, readEntries] at h
    cases he : readEntry s (q1 + 1) with
    | none => simp [he] at h
    | some e =>
      cases hr : readEntries s (pre ++ [0]) with
      | none => simp [he, hr] at h
      | some es1 =>
        simp [he, hr] at h
        obtain ⟨body, rfl, hb, hlen⟩ := readEntries_terminated s pre es1
          (fun x hx => hpre x (List.mem_cons_of_mem q1.succ hx)) hr
        refine ⟨e :: body, by simp [← h], ?_, by simp [hlen]⟩
        intro hmem
        cases hmem with
        | head =>
          simp [readEntry] at he
        | tail _ hm => exact hb hm

/-- Every sequence a caller can read is a list of strings closed by one terminator. -/
theorem envSequence_terminated (s : ProcState) (t : Ptr) (l : List Entry)
    (h : envSequence s t = some l) :
    ∃ body, l = body ++ [Entry.terminator] ∧ Entry.terminator ∉ body := by
  unfold envSequence at h
  cases hr : readTable s.ptrMem s.ptrMem.length t with
  | none => simp [hr] at h
  | some qs =>
    simp [hr] at h
    obtain ⟨pre, rfl, hpre⟩ := readTable_terminated s.ptrMem _ t qs hr
    obtain ⟨body, hb, hnot, _⟩ := readEntries_terminated s pre l hpre h
    exact ⟨body, hb, hnot⟩

/-- The shape test agrees with a split at the first `=` into a non-empty key and a value. -/
theorem hasShape_iff (cs : List Char) :
    hasShape cs = true ↔ ∃ k v, k ≠ [] ∧ '=' ∉ k ∧ cs = k ++ '=' :: v := by
  constructor
  · intro h
    simp only [hasShape, Bool.and_eq_true, Bool.not_eq_true'] at h
    obtain ⟨hc, hk⟩ := h
    refine ⟨keyOf cs, (cs.dropWhile (fun ch => ch != '=')).tail, ?_, ?_, ?_⟩
    · intro h0
      simp [h0] at hk
    · intro hmem
      have := List.mem_takeWhile_imp hmem
      simp at this
    · have hsplit := List.takeWhile_append_dropWhile (fun ch => ch != '=') cs
      have hne : cs.dropWhile (fun ch => ch != '=') ≠ [] := by
        intro h0
        rw [List.dropWhile_eq_nil_iff] at h0
        have hm : '=' ∈ cs := by simpa using hc
        have := h0 '=' hm
        simp at this
      obtain ⟨d, ds, hd⟩ := List.exists_cons_of_ne_nil hne
      have hhead := List.head_dropWhile_not (fun ch => ch != '=') cs hne
      simp [hd] at hhead
      rw [hd, hhead] at hsplit
      simp [keyOf, hd, hsplit]
  · rintro ⟨k, v, hk, hnot, rfl⟩
    have htw : keyOf (k ++ '=' :: v) = k := by
      unfold keyOf
      rw [List.takeWhile_append_of_pos]
      · simp [List.takeWhile]
      · intro x hx
        have : x ≠ '=' := fun h => hnot (h ▸ hx)
        simpa using this
    simp [hasShape, htw, hk]

/-! ## Build-time results -/

/-- C10: for every combination of `__APPLE__`, `__linux__`, `_WIN32` and `_WIN64`
(and of `__cplusplus`), preprocessing `env.c` emits at most one definition of
`neton_get_environ`, chosen by fixed priority: the Apple body whenever
`__APPLE__` is defined, else the Linux body when `__linux__` is defined, else
the Windows body when `_WIN32` or `_WIN64` is defined, else none. -/
theorem env_c_branch_priority (c : Config) :
    (emitted c).length ≤ 1 ∧
    emitted c =
      if c.__APPLE__ then [Platform.apple]
      else if c.__linux__ then [Platform.linux]
      else if c._WIN32 || c._WIN64 then [Platform.windows]
      else [] := by
  obtain ⟨a, l, w1, w2, cpp⟩ := c
  cases a <;> cases l <;> cases w1 <;> cases w2 <;> cases cpp <;> decide

/-- C3: when none of the four platform macros is defined, preprocessing `env.c`
emits no definition of `neton_get_environ` (indeed no declaration at all),
`env.h` still emits the prototype, and an object that uses the symbol without
defining it leaves it unresolved when linked with the compiled `env.c`. -/
theorem unsupported_emits_no_definition (c : Config) (h : c.unsupported = true) :
    emitted c = [] ∧
    (preprocess c .env_c).out = [] ∧
    Decl.funDecl Sym.neton_get_environ ∈ (preprocess c .env_h).out ∧
    ∃ o, compile c .env_c = some o ∧
      ∀ user : ObjectFile, Sym.neton_get_environ ∈ user.referenced →
        Sym.neton_get_environ ∉ user.defined →
        Sym.neton_get_environ ∈ unresolved [user, o] := by
  obtain ⟨a, l, w1, w2, cpp⟩ := c
  cases a <;> cases l <;> cases w1 <;> cases w2 <;> simp [Config.unsupported] at h
  have hc : ∀ b, compile ⟨false, false, false, false, b⟩ .env_c = some ⟨[], []⟩ := by decide
  refine ⟨by cases cpp <;> decide, by cases cpp <;> decide, by cases cpp <;> decide,
    ⟨[], []⟩, hc cpp, ?_⟩
  intro user huse hdef
  simp [unresolved, definedIn, huse, hdef]

/-- Witness of C3 at the configuration with no macro predefined. -/
theorem unsupported_emits_no_definition_witness :
    bareConfig.unsupported = true ∧
    (emitted bareConfig = [] ∧
    (preprocess bareConfig .env_c).out = [] ∧
    Decl.funDecl Sym.neton_get_environ ∈ (preprocess bareConfig .env_h).out ∧
    ∃ o, compile bareConfig .env_c = some o ∧
      ∀ user : ObjectFile, Sym.neton_get_environ ∈ user.referenced →
        Sym.neton_get_environ ∉ user.defined →
        Sym.neton_get_environ ∈ unresolved [user, o]) :=
  ⟨by decide, unsupported_emits_no_definition bareConfig (by decide)⟩

/-- C2, as stated, fails: with none of the four macros defined `env.c` holds no
kept `#error` and nothing else that a compiler rejects, so compiling it
succeeds and yields an object file without symbols. -/
theorem bare_config_compiles :
    bareConfig.unsupported = true ∧
    (preprocess bareConfig .env_c).errors = 0 ∧
    compile bareConfig .env_c = some { defined := [], referenced := [] } := by
  decide

/-- C2, amended: when none of the four platform macros is defined, compiling
`env.c` raises no diagnostic and yields an object that defines no symbol, hence
no accessor of any kind; the build fails at the link step as soon as a unit
that uses `neton_get_environ` without defining it is linked with that object. -/
theorem unsupported_build_fails_at_link (c : Config) (user : ObjectFile)
    (h : c.unsupported = true)
    (huse : Sym.neton_get_environ ∈ user.referenced)
    (hdef : Sym.neton_get_environ ∉ user.defined) :
    (preprocess c .env_c).errors = 0 ∧
    ∃ o, compile c .env_c = some o ∧ o.defined = [] ∧ links [user, o] = false := by
  obtain ⟨a, l, w1, w2, cpp⟩ := c
  cases a <;> cases l <;> cases w1 <;> cases w2 <;> simp [Config.unsupported] at h
  have hc : ∀ b, compile ⟨false, false, false, false, b⟩ .env_c = some ⟨[], []⟩ := by decide
  refine ⟨by cases cpp <;> decide, ⟨[], []⟩, hc cpp, rfl, ?_⟩
  have hmem : Sym.neton_get_environ ∈ unresolved [user, ⟨[], []⟩] := by
    simp [unresolved, definedIn, huse, hdef]
  cases hu : unresolved [user, ⟨[], []⟩] with
  | nil => simp [hu] at hmem
  | cons x xs => simp [links, hu]

/-- Witness of the amended C2 at the configuration with no macro predefined
and a unit that calls the accessor. -/
theorem unsupported_build_fails_at_link_witness :
    bareConfig.unsupported = true ∧
    Sym.neton_get_environ ∈ callerObject.referenced ∧
    Sym.neton_get_environ ∉ callerObject.defined ∧
    ((preprocess bareConfig .env_c).errors = 0 ∧
    ∃ o, compile bareConfig .env_c = some o ∧ o.defined = [] ∧
      links [callerObject, o] = false) :=
  ⟨by decide, by decide, by decide,
    unsupported_build_fails_at_link bareConfig callerObject (by decide) (by decide) (by decide)⟩

/-! ## Run-time results -/

/-- C1: for every process state the accessor returns the platform table pointer
itself, in the state it was given: on Apple the value loaded through the
pointer that `_NSGetEnviron()` returns, on Linux the value of `environ`, on
Windows the value of `_environ`. -/
theorem neton_get_environ_returns_platform_table (s : ProcState) :
    (∃ t, load s.ptrMem (_NSGetEnviron s).1 = some t ∧
      neton_get_environ .apple s = some (t, s)) ∧
    neton_get_environ .linux s = some (s.environ, s) ∧
    neton_get_environ .windows s = some (s._environ, s) := by
  obtain ⟨t, ht, hr⟩ := neton_get_environ_spec .apple s
  exact ⟨⟨t, ht, hr⟩, rfl, rfl⟩

/-- C4: on every supported platform a call returns and the state after the call
is the state before it, so the environment block of the process (entries,
order and terminator) is the same before and after. -/
theorem neton_get_environ_frame (p : Platform) (s : ProcState) :
    ∃ t s1, neton_get_environ p s = some (t, s1) ∧ s1 = s ∧
      processEnv p s1 = processEnv p s := by
  obtain ⟨t, _, hr⟩ := neton_get_environ_spec p s
  exact ⟨t, s, hr, rfl, rfl⟩

/-- C5: on every supported platform and for every process state, two successive
calls, the second made in the state the first one left, yield sequences with
the same entries in the same order. -/
theorem neton_get_environ_twice (p : Platform) (s : ProcState) :
    ∃ t1 s1 t2 s2, neton_get_environ p s = some (t1, s1) ∧
      neton_get_environ p s1 = some (t2, s2) ∧
      envSequence s1 t1 = envSequence s2 t2 := by
  obtain ⟨t, _, hr⟩ := neton_get_environ_spec p s
  exact ⟨t, s, t, s, hr, hr, rfl⟩

/-- C6: on every supported platform, if the environment block of the process
holds the entry `KEY=VALUE` at the time of the call, the sequence read through
the returned pointer holds that entry. -/
theorem neton_get_environ_contains_entry (p : Platform) (s : ProcState)
    (key value : List Char) (env : List Entry)
    (henv : processEnv p s = some env)
    (hmem : Entry.str (key ++ '=' :: value) ∈ env) :
    ∃ t s1 l, neton_get_environ p s = some (t, s1) ∧ envSequence s1 t = some l ∧
      Entry.str (key ++ '=' :: value) ∈ l := by
  obtain ⟨t, ht, hr⟩ := neton_get_environ_spec p s
  refine ⟨t, s, env, hr, ?_, hmem⟩
  simpa [processEnv, ht] using henv

/-- Witness of C6: `PROBE_VAR=probe_value` on Linux. -/
theorem neton_get_environ_contains_entry_witness :
    processEnv .linux probeState =
      some [.str "A=1".toList, .str "PROBE_VAR=probe_value".toList, .terminator] ∧
    Entry.str ("PROBE_VAR".toList ++ '=' :: "probe_value".toList) ∈
      [Entry.str "A=1".toList, .str "PROBE_VAR=probe_value".toList, .terminator] ∧
    ∃ t s1 l, neton_get_environ .linux probeState = some (t, s1) ∧
      envSequence s1 t = some l ∧
      Entry.str ("PROBE_VAR".toList ++ '=' :: "probe_value".toList) ∈ l :=
  ⟨by decide, by decide,
    neton_get_environ_contains_entry .linux probeState "PROBE_VAR".toList "probe_value".toList
      [.str "A=1".toList, .str "PROBE_VAR=probe_value".toList, .terminator]
      (by decide) (by decide)⟩

/-- C7: on every supported platform, when the environment block of the process
holds at least one variable, the sequence read through the returned pointer is
non-empty, holds a variable, ends with the terminator, and holds nothing after
the terminator. -/
theorem neton_get_environ_nonempty_terminated (p : Platform) (s : ProcState)
    (env : List Entry) (henv : processEnv p s = some env)
    (hvar : ∃ cs, Entry.str cs ∈ env) :
    ∃ t s1 l, neton_get_environ p s = some (t, s1) ∧ envSequence s1 t = some l ∧
      l ≠ [] ∧ (∃ cs, Entry.str cs ∈ l) ∧ l.getLast? = some Entry.terminator ∧
      ∀ pre post, l = pre ++ Entry.terminator :: post → post = [] := by
  obtain ⟨t, ht, hr⟩ := neton_get_environ_spec p s
  have hseq : envSequence s t = some env := by simpa [processEnv, ht] using henv
  obtain ⟨body, rfl, hbody⟩ := envSequence_terminated s t env hseq
  refine ⟨t, s, body ++ [Entry.terminator], hr, hseq, by simp, hvar, by simp, ?_⟩
  intro pre post hsplit
  cases post with
  | nil => rfl
  | cons e es =>
    exfalso
    have hlen := congrArg List.length hsplit
    have hpre : pre.length < body.length := by
      simp at hlen
      omega
    have h1 : (body ++ [Entry.terminator])[pre.length]? = body[pre.length]? :=
      List.getElem?_append_left hpre
    have h2 : (pre ++ Entry.terminator :: e :: es)[pre.length]? = some Entry.terminator := by
      rw [List.getElem?_append_right (Nat.le_refl _)]
      simp
    have h3 : body[pre.length]? = some Entry.terminator := by
      rw [← h1, hsplit, h2]
    exact hbody (List.getElem?_mem h3)

/-- Witness of C7: the process with `A=1` and `PROBE_VAR=probe_value` on Apple. -/
theorem neton_get_environ_nonempty_terminated_witness :
    processEnv .apple probeState =
      some [.str "A=1".toList, .str "PROBE_VAR=probe_value".toList, .terminator] ∧
    (∃ cs, Entry.str cs ∈
      [Entry.str "A=1".toList, .str "PROBE_VAR=probe_value".toList, .terminator]) ∧
    ∃ t s1 l, neton_get_environ .apple probeState = some (t, s1) ∧
      envSequence s1 t = some l ∧
      l ≠ [] ∧ (∃ cs, Entry.str cs ∈ l) ∧ l.getLast? = some Entry.terminator ∧
      ∀ pre post, l = pre ++ Entry.terminator :: post → post = [] :=
  ⟨by decide, ⟨"A=1".toList, by decide⟩,
    neton_get_environ_nonempty_terminated .apple probeState
      [.str "A=1".toList, .str "PROBE_VAR=probe_value".toList, .terminator]
      (by decide) ⟨"A=1".toList, by decide⟩⟩

/-- C8, as stated, fails: for a process started with the entries `NOEQ` and
`=x` the accessor on Linux returns the table as it is, and neither entry has
the shape of a non-empty key, `=`, value. -/
theorem raw_entries_without_shape :
    neton_get_environ .linux rawState = some (2, rawState) ∧
    envSequence rawState 2 =
      some [.str "NOEQ".toList, .str "=x".toList, .terminator] ∧
    hasShape "NOEQ".toList = false ∧
    hasShape "=x".toList = false :=
  ⟨rfl, by decide, by decide, by decide⟩

/-- C8, amended: for every process state whose environment block holds only
entries of the shape non-empty key, `=`, value, every non-terminator entry of
the sequence read through the returned pointer has that shape: it splits at
its first `=` into a non-empty key and a value that may be empty. -/
theorem neton_get_environ_shape_preserved (p : Platform) (s : ProcState)
    (env : List Entry) (henv : processEnv p s = some env)
    (hshape : ∀ cs, Entry.str cs ∈ env → hasShape cs = true) :
    ∃ t s1 l, neton_get_environ p s = some (t, s1) ∧ envSequence s1 t = some l ∧
      ∀ cs, Entry.str cs ∈ l →
        hasShape cs = true ∧ ∃ k v, k ≠ [] ∧ '=' ∉ k ∧ cs = k ++ '=' :: v := by
  obtain ⟨t, ht, hr⟩ := neton_get_environ_spec p s
  have hseq : envSequence s t = some env := by simpa [processEnv, ht] using henv
  exact ⟨t, s, env, hr, hseq, fun cs hcs =>
    ⟨hshape cs hcs, (hasShape_iff cs).mp (hshape cs hcs)⟩⟩

/-- Witness of the amended C8: the process with `A=1` and
`PROBE_VAR=probe_value` on Windows. -/
theorem neton_get_environ_shape_preserved_witness :
    processEnv .windows probeState =
      some [.str "A=1".toList, .str "PROBE_VAR=probe_value".toList, .terminator] ∧
    (∀ cs, Entry.str cs ∈
        [Entry.str "A=1".toList, .str "PROBE_VAR=probe_value".toList, .terminator] →
      hasShape cs = true) ∧
    ∃ t s1 l, neton_get_environ .windows probeState = some (t, s1) ∧
      envSequence s1 t = some l ∧
      ∀ cs, Entry.str cs ∈ l →
        hasShape cs = true ∧ ∃ k v, k ≠ [] ∧ '=' ∉ k ∧ cs = k ++ '=' :: v :=
  have hall : ∀ cs, Entry.str cs ∈
      [Entry.str "A=1".toList, .str "PROBE_VAR=probe_value".toList, .terminator] →
      hasShape cs = true := by
    intro cs hcs
    simp only [List.mem_cons, Entry.str.injEq, List.mem_singleton, reduceCtorEq,
      or_false, List.not_mem_nil] at hcs
    rcases hcs with rfl | rfl <;> decide
  ⟨by decide, hall,
    neton_get_environ_shape_preserved .windows probeState
      [.str "A=1".toList, .str "PROBE_VAR=probe_value".toList, .terminator]
      (by decide) hall⟩

/-- C9, as stated, fails: in a process whose runtime pointer is null the call
on Linux and on Windows returns the null pointer, through which no table is
read. -/
theorem cleared_state_yields_no_table :
    neton_get_environ .linux clearedState = some (0, clearedState) ∧
    neton_get_environ .windows clearedState = some (0, clearedState) ∧
    envSequence clearedState 0 = none ∧
    ¬ ∃ t s1 l, neton_get_environ .linux clearedState = some (t, s1) ∧
      envSequence s1 t = some l := by
  refine ⟨rfl, rfl, by decide, ?_⟩
  rintro ⟨t, s1, l, hr, hl⟩
  have hcall : neton_get_environ .linux clearedState = some (0, clearedState) := rfl
  rw [hcall] at hr
  simp only [Option.some.injEq, Prod.mk.injEq] at hr
  obtain ⟨rfl, rfl⟩ := hr
  have hnone : envSequence clearedState 0 = none := by decide
  rw [hnone] at hl
  exact Option.noConfusion hl

/-- C9, amended: on every supported platform and for every process state the
call returns a result with no failing branch, and the result is the pointer the
platform runtime holds, in the unchanged state; whenever the runtime holds a
readable table, that pointer is not null and the same table is read through it. -/
theorem neton_get_environ_never_faults (p : Platform) (s : ProcState) :
    ∃ t, platformTable p s = some t ∧ neton_get_environ p s = some (t, s) ∧
      ∀ env, processEnv p s = some env → t ≠ 0 ∧ envSequence s t = some env := by
  obtain ⟨t, ht, hr⟩ := neton_get_environ_spec p s
  refine ⟨t, ht, hr, ?_⟩
  intro env henv
  have hseq : envSequence s t = some env := by simpa [processEnv, ht] using henv
  refine ⟨?_, hseq⟩
  rintro rfl
  simp [envSequence, readTable_null] at hseq

end Neton
